import Mathlib

/-!
Verification of the training-phrase similarity and clustering engine of the
dfcx-scrapi repository, together with the CI/CD artifact-push script.

The analyzers (`NaturalLanguageUnderstandingUtil` with its operations
`find_similar_training_phrases_in_different_intents`, `find_similar_phrases`
and `find_new_groups`, backed by an embedding model) are invoked from
`examples/bot_building_series/genai_agents_101.ipynb`, but their implementation
module `dfcx_scrapi/tools/nlu_util.py` is not part of the source tree here;
those components are therefore modelled from the specification (sections 2-4
and 7 of the design document), as noted on each definition.  The artifact-push
script (`git commit --allow-empty` followed by `git push`) is present in the
source tree and is embedded directly.

Vectors are modelled with exact rationals in place of floating-point numbers.
Cosine similarity is not a rational-valued operation (it divides by the
product of the two Euclidean norms); since the specification stresses that the
metric is "stable under vector rescaling" and that "only direction" carries
meaning, the development abstracts the similarity metric as a function
`sim : Vec -> Vec -> Rat` and proves every property for an arbitrary metric
(adding the symmetry hypothesis where the undirected similarity graph needs
it), so each proved property holds in particular for cosine similarity.
Concrete witnesses instantiate `sim` with simple symmetric metrics (`simEq`,
`simChain`) whose values on the witness vectors are spelled out directly.
-/

namespace DfcxScrapi

/-- Embedding vectors.  Modelled from the spec: a fixed-length numeric vector
(section 2, Embedding Provider); components are exact rationals in place of
floats. -/
abbrev Vec := List ℚ

/-- Modelled from the spec, section 3: a TrainingPhrase is a record of a text
and the display name of the intent owning it. -/
structure TrainingPhrase where
  text : String
  intent_name : String
deriving DecidableEq, Repr

/-- Modelled from the spec, section 3: an EmbeddedPhrase pairs a phrase with
its embedding vector. -/
structure EmbeddedPhrase where
  phrase : TrainingPhrase
  vector : Vec
deriving DecidableEq, Repr

/-- Modelled from the spec, section 4.1: the Embedding Provider is a single
operation producing a vector for a text; `none` models a failed embedding
call (InvalidInput or EmbeddingFailure).  It is a pure function of the text,
so identical text always receives the identical result. -/
abbrev Embedder := String → Option Vec

/-- A concrete similarity metric used by the witnesses: identical vectors are
maximally similar (score 1), distinct vectors are dissimilar (score 0).  Like
cosine similarity it is symmetric and self-similarity is maximal. -/
def simEq (u v : Vec) : ℚ := if u = v then 1 else 0

theorem simEq_comm (u v : Vec) : simEq u v = simEq v u := by
  unfold simEq
  by_cases h : u = v
  · rw [if_pos h, if_pos h.symm]
  · rw [if_neg h, if_neg (fun h2 => h h2.symm)]

/-- Modelled from the spec, section 4.2: the Training Corpus Index holds the
embedded representation of every training phrase. -/
structure Index where
  entries : List EmbeddedPhrase
deriving DecidableEq, Repr

/-- Modelled from the spec, sections 4.2 and 7: the result of an index build,
either a built index or a fatal AggregateEmbeddingError reporting the phrases
whose embedding calls failed. -/
inductive BuildResult where
  | ok (index : Index)
  | aggregateEmbeddingError (failed : List TrainingPhrase)
deriving DecidableEq, Repr

/-- Modelled from the spec, section 4.2 (`build`): embeds every phrase exactly
once (each phrase contributes a single call in `results`); fails the whole
build with an AggregateEmbeddingError naming the failed phrases if any
individual embedding call fails, and otherwise returns the index with one
entry per phrase, in input order. -/
def build (embed : Embedder) (phrases : List TrainingPhrase) : BuildResult :=
  let results := phrases.map (fun p => (p, embed p.text))
  let failed := (results.filter (fun r => r.2.isNone)).map (fun r => r.1)
  if failed.isEmpty then
    BuildResult.ok ⟨results.filterMap (fun r => r.2.map (fun v => ⟨r.1, v⟩))⟩
  else
    BuildResult.aggregateEmbeddingError failed

/-! The CI/CD artifact-push script (`src/unnamed/part_002`).  The script
clones the agent repository, checks out `main`, replaces the contents of the
`agent_artifacts` directory with the freshly exported agent file, the metadata
file and a timestamp file, then runs `git add .`, `git commit --allow-empty`
and `git push -u origin main`.  Embedded as explicit state passing over a git
repository state. -/

/-- A git commit: its message and the snapshot of the tracked directory. -/
structure Commit where
  message : String
  tree : List (String × String)
deriving DecidableEq, Repr

/-- State of the agent repository: the local `main` history (newest first),
the remote `origin/main` history, and the working-tree contents of the
`agent_artifacts` directory as (file name, content) pairs. -/
structure GitRepo where
  main_history : List Commit
  origin_main : List Commit
  artifacts : List (String × String)
deriving DecidableEq, Repr

/-- Embeds `rm agent_artifacts/*`. -/
def clearArtifacts (r : GitRepo) : GitRepo := { r with artifacts := [] }

/-- Embeds `cp <file> agent_artifacts/` (and `date > agent_artifacts/timestamp.txt`). -/
def copyFile (name content : String) (r : GitRepo) : GitRepo :=
  { r with artifacts := r.artifacts ++ [(name, content)] }

/-- Embeds `git add .` followed by `git commit --allow-empty -m msg`: the
`--allow-empty` flag makes the commit unconditional, appending a new commit
whose tree is the current working tree even when that tree equals the current
head commit's tree. -/
def gitCommitAllowEmpty (msg : String) (r : GitRepo) : GitRepo :=
  { r with main_history := ⟨msg, r.artifacts⟩ :: r.main_history }

/-- Embeds `git push -u origin main`: the remote branch is set to the local
`main` history. -/
def gitPushOriginMain (r : GitRepo) : GitRepo :=
  { r with origin_main := r.main_history }

/-- The artifact-push script (`src/unnamed/part_002`), lines 14-30: clear the
artifact directory, copy the exported agent file and the metadata file, write
the timestamp file, then commit (with `--allow-empty`) and push to
`origin main`. -/
def repopush (commitMsg agentName agentContent metadataContent timestamp : String)
    (r : GitRepo) : GitRepo :=
  gitPushOriginMain
    (gitCommitAllowEmpty commitMsg
      (copyFile "timestamp.txt" timestamp
        (copyFile "metadata.json" metadataContent
          (copyFile agentName agentContent
            (clearArtifacts r)))))

/-! Theorems for claims C2 and C10. -/

theorem build_filter_eq (embed : Embedder) (phrases : List TrainingPhrase) :
    ((phrases.map (fun p => (p, embed p.text))).filter (fun r => r.2.isNone)).map
        (fun r => r.1)
      = phrases.filter (fun p => (embed p.text).isNone) := by
  induction phrases with
  | nil => simp
  | cons p ps ih =>
    by_cases h : (embed p.text).isNone <;>
      simp [List.filter_cons, h, ih]

theorem build_entries_map (embed : Embedder) (phrases : List TrainingPhrase)
    (h : ∀ p ∈ phrases, (embed p.text).isSome) :
    ((phrases.map (fun p => (p, embed p.text))).filterMap
        (fun r => r.2.map (fun v => (⟨r.1, v⟩ : EmbeddedPhrase)))).map
          (fun e => e.phrase)
      = phrases := by
  induction phrases with
  | nil => simp
  | cons p ps ih =>
    have hp : (embed p.text).isSome := h p (List.mem_cons_self p ps)
    obtain ⟨v, hv⟩ := Option.isSome_iff_exists.mp hp
    simp only [List.map_cons, List.filterMap_cons, hv, Option.map_some']
    exact congrArg (p :: ·) (ih (fun q hq => h q (List.mem_cons_of_mem p hq)))

theorem build_entries_sound (embed : Embedder) (phrases : List TrainingPhrase) :
    ∀ e ∈ (phrases.map (fun p => (p, embed p.text))).filterMap
        (fun r => r.2.map (fun v => (⟨r.1, v⟩ : EmbeddedPhrase))),
      embed e.phrase.text = some e.vector := by
  intro e he
  rw [List.mem_filterMap] at he
  obtain ⟨r, hr, hre⟩ := he
  rw [List.mem_map] at hr
  obtain ⟨p, _, rfl⟩ := hr
  rcases hop : embed p.text with _ | v
  · rw [hop] at hre; simp at hre
  · rw [hop] at hre
    simp only [Option.map_some', Option.some.injEq] at hre
    subst hre
    exact hop

theorem build_def (embed : Embedder) (phrases : List TrainingPhrase) :
    build embed phrases
      = if (phrases.filter (fun p => (embed p.text).isNone)).isEmpty then
          BuildResult.ok ⟨(phrases.map (fun p => (p, embed p.text))).filterMap
            (fun r => r.2.map (fun v => ⟨r.1, v⟩))⟩
        else
          BuildResult.aggregateEmbeddingError
            (phrases.filter (fun p => (embed p.text).isNone)) := by
  simp only [build, build_filter_eq]

/-- Claim C2: `build` embeds each phrase exactly once — on success the index
has exactly one entry per input phrase, in order, carrying that phrase's
embedding — and the whole build fails with an AggregateEmbeddingError naming
exactly the failed phrases whenever any individual embedding call fails, in
which case no index is returned at all. -/
theorem build_correct (embed : Embedder) (phrases : List TrainingPhrase) :
    ((∀ p ∈ phrases, (embed p.text).isSome) →
      ∃ idx, build embed phrases = BuildResult.ok idx
        ∧ idx.entries.map (fun e => e.phrase) = phrases
        ∧ idx.entries.length = phrases.length
        ∧ ∀ e ∈ idx.entries, embed e.phrase.text = some e.vector)
    ∧ (∀ pbad ∈ phrases, embed pbad.text = none →
      build embed phrases
          = BuildResult.aggregateEmbeddingError
              (phrases.filter (fun p => (embed p.text).isNone))
        ∧ pbad ∈ phrases.filter (fun p => (embed p.text).isNone)
        ∧ (∀ q, q ∈ phrases.filter (fun p => (embed p.text).isNone)
            ↔ q ∈ phrases ∧ embed q.text = none)
        ∧ ∀ idx, build embed phrases ≠ BuildResult.ok idx) := by
  constructor
  · intro hall
    have hfil : phrases.filter (fun p => (embed p.text).isNone) = [] := by
      rw [List.filter_eq_nil_iff]
      intro p hp
      obtain ⟨v, hv⟩ := Option.isSome_iff_exists.mp (hall p hp)
      simp [hv]
    refine ⟨⟨(phrases.map (fun p => (p, embed p.text))).filterMap
        (fun r => r.2.map (fun v => ⟨r.1, v⟩))⟩, ?_, ?_, ?_, ?_⟩
    · rw [build_def, hfil]
      simp
    · exact build_entries_map embed phrases hall
    · have := congrArg List.length (build_entries_map embed phrases hall)
      simpa using this
    · exact build_entries_sound embed phrases
  · intro pbad hmem hbad
    have hne : phrases.filter (fun p => (embed p.text).isNone) ≠ [] := by
      intro hnil
      rw [List.filter_eq_nil_iff] at hnil
      have := hnil pbad hmem
      simp [hbad] at this
    have hres : build embed phrases
        = BuildResult.aggregateEmbeddingError
            (phrases.filter (fun p => (embed p.text).isNone)) := by
      rw [build_def]
      rw [if_neg (by simpa [List.isEmpty_iff] using hne)]
    refine ⟨hres, ?_, ?_, ?_⟩
    · rw [List.mem_filter]
      exact ⟨hmem, by simp [hbad]⟩
    · intro q
      rw [List.mem_filter]
      simp [Option.isNone_iff_eq_none]
    · intro idx hok
      rw [hres] at hok
      exact BuildResult.noConfusion hok

/-- Witness for claim C2 at a concrete input: with an embedder failing on the
single phrase, the build returns an AggregateEmbeddingError naming it. -/
theorem build_correct_witness :
    build (fun t => if t = "bad" then none else some [1])
        [⟨"bad", "IntentA"⟩]
      = BuildResult.aggregateEmbeddingError [⟨"bad", "IntentA"⟩] := by
  have h := (build_correct (fun t => if t = "bad" then none else some [1])
      [⟨"bad", "IntentA"⟩]).2 ⟨"bad", "IntentA"⟩ (by decide) (by decide)
  have h1 := h.1
  rw [h1]
  decide

/-- Claim C10: every invocation of the artifact-push script appends exactly
one new commit to the local `main` history — unconditionally, because the
commit uses `--allow-empty`, so also when the copied artifact contents equal
the previous head commit's tree — and pushes, leaving `origin/main` equal to
the new local history. -/
theorem repopush_always_pushes_new_commit
    (commitMsg agentName agentContent metadataContent timestamp : String)
    (r : GitRepo) :
    (repopush commitMsg agentName agentContent metadataContent timestamp r).main_history
        = ⟨commitMsg, [(agentName, agentContent), ("metadata.json", metadataContent),
            ("timestamp.txt", timestamp)]⟩ :: r.main_history
    ∧ (repopush commitMsg agentName agentContent metadataContent timestamp r).origin_main
        = (repopush commitMsg agentName agentContent metadataContent timestamp r).main_history
    ∧ (repopush commitMsg agentName agentContent metadataContent timestamp r).main_history.length
        = r.main_history.length + 1 := by
  refine ⟨rfl, rfl, ?_⟩
  simp [repopush, gitPushOriginMain, gitCommitAllowEmpty, copyFile, clearArtifacts]

/-! A stable, structurally recursive sort used by the report-producing
operations (kernel-computable, unlike well-founded recursion). -/

/-- Insert an element into a sorted list, before the first element it
compares at-or-before. -/
def insertSorted (le : α → α → Bool) (a : α) : List α → List α
  | [] => [a]
  | b :: l => if le a b then a :: b :: l else b :: insertSorted le a l

/-- Stable insertion sort by a Boolean comparator. -/
def sortBy (le : α → α → Bool) : List α → List α
  | [] => []
  | a :: l => insertSorted le a (sortBy le l)

theorem perm_insertSorted (le : α → α → Bool) (a : α) (l : List α) :
    List.Perm (insertSorted le a l) (a :: l) := by
  induction l with
  | nil => rfl
  | cons b l ih =>
    unfold insertSorted
    by_cases h : le a b
    · rw [if_pos h]
    · rw [if_neg h]
      exact (ih.cons b).trans (List.Perm.swap a b l)

theorem perm_sortBy (le : α → α → Bool) (l : List α) :
    List.Perm (sortBy le l) l := by
  induction l with
  | nil => rfl
  | cons a l ih => exact (perm_insertSorted le a (sortBy le l)).trans (ih.cons a)

theorem mem_sortBy (le : α → α → Bool) (l : List α) (x : α) :
    x ∈ sortBy le l ↔ x ∈ l := (perm_sortBy le l).mem_iff

theorem length_sortBy (le : α → α → Bool) (l : List α) :
    (sortBy le l).length = l.length := (perm_sortBy le l).length_eq

theorem pairwise_insertSorted (le : α → α → Bool)
    (trans : ∀ a b c, le a b → le b c → le a c)
    (total : ∀ a b, le a b || le b a) (a : α) (l : List α)
    (h : l.Pairwise (fun x y => le x y = true)) :
    (insertSorted le a l).Pairwise (fun x y => le x y = true) := by
  induction l with
  | nil => simp [insertSorted]
  | cons b l ih =>
    rw [List.pairwise_cons] at h
    obtain ⟨hb, hl⟩ := h
    unfold insertSorted
    by_cases hab : le a b
    · rw [if_pos hab]
      rw [List.pairwise_cons]
      refine ⟨?_, List.pairwise_cons.mpr ⟨hb, hl⟩⟩
      intro x hx
      rcases List.mem_cons.mp hx with rfl | hx
      · exact hab
      · exact trans a b x hab (hb x hx)
    · rw [if_neg hab]
      rw [List.pairwise_cons]
      refine ⟨?_, ih hl⟩
      intro x hx
      have hx2 := (perm_insertSorted le a l).mem_iff.mp hx
      rcases List.mem_cons.mp hx2 with rfl | hx2
      · rcases (by simpa using total x b : le x b = true ∨ le b x = true)
          with h1 | h1
        · exact absurd h1 hab
        · exact h1
      · exact hb x hx2

theorem pairwise_sortBy (le : α → α → Bool)
    (trans : ∀ a b c, le a b → le b c → le a c)
    (total : ∀ a b, le a b || le b a) (l : List α) :
    (sortBy le l).Pairwise (fun x y => le x y = true) := by
  induction l with
  | nil => simp [sortBy]
  | cons a l ih => exact pairwise_insertSorted le trans total a (sortBy le l) ih

/-! Nearest-neighbor lookup over the Training Corpus Index. -/

/-- A scored candidate of a nearest-neighbor lookup: the corpus position of
the entry, the entry itself, and its similarity score against the query. -/
structure Scored where
  pos : Nat
  entry : EmbeddedPhrase
  score : ℚ
deriving DecidableEq, Repr

/-- Comparator for nearest-neighbor results: higher scores first, equal
scores ordered by corpus position (first-seen-first-returned). -/
def scoreLe (a b : Scored) : Bool :=
  decide (b.score < a.score ∨ (a.score = b.score ∧ a.pos ≤ b.pos))

/-- Modelled from the spec, section 4.2 (`nearest`): the scored candidate
list of a query — every corpus entry whose phrase identity (its text) is not
in the exclude set, with its corpus position and its similarity score. -/
def candidates (sim : Vec → Vec → ℚ) (idx : Index) (v : Vec)
    (exclude : List String) : List Scored :=
  (idx.entries.enum.filter (fun p => decide (¬ p.2.phrase.text ∈ exclude))).map
    (fun p => ⟨p.1, p.2, sim v p.2.vector⟩)

/-- Modelled from the spec, section 4.2 (`nearest`): sort the candidates by
descending score, ties broken by input-order stability, and keep the first
`k`; the implementation of `nlu_util` is missing from the tree, so the exact
scan licensed by section 9 of the spec is used. -/
def nearestScored (sim : Vec → Vec → ℚ) (idx : Index) (v : Vec) (k : Nat)
    (exclude : List String) : List Scored :=
  (sortBy scoreLe (candidates sim idx v exclude)).take k

/-- Modelled from the spec, section 4.2 (`nearest`): the ordered sequence of
(EmbeddedPhrase, score) pairs of length at most `k`. -/
def nearest (sim : Vec → Vec → ℚ) (idx : Index) (v : Vec) (k : Nat)
    (exclude : List String) : List (EmbeddedPhrase × ℚ) :=
  (nearestScored sim idx v k exclude).map (fun s => (s.entry, s.score))

theorem scoreLe_trans (a b c : Scored) (h1 : scoreLe a b) (h2 : scoreLe b c) :
    scoreLe a c := by
  simp only [scoreLe, decide_eq_true_eq] at h1 h2 ⊢
  rcases h1 with h1 | ⟨h1e, h1p⟩ <;> rcases h2 with h2 | ⟨h2e, h2p⟩
  · exact Or.inl (h2.trans h1)
  · exact Or.inl (h2e ▸ h1)
  · exact Or.inl (lt_of_lt_of_eq h2 h1e.symm)
  · exact Or.inr ⟨h1e.trans h2e, h1p.trans h2p⟩

theorem scoreLe_total (a b : Scored) : scoreLe a b || scoreLe b a := by
  simp only [scoreLe, Bool.or_eq_true, decide_eq_true_eq]
  rcases lt_trichotomy a.score b.score with h | h | h
  · exact Or.inr (Or.inl h)
  · rcases Nat.le_total a.pos b.pos with hp | hp
    · exact Or.inl (Or.inr ⟨h, hp⟩)
    · exact Or.inr (Or.inr ⟨h.symm, hp⟩)
  · exact Or.inl (Or.inl h)

theorem candidates_pos_nodup (sim : Vec → Vec → ℚ) (idx : Index) (v : Vec)
    (exclude : List String) :
    ((candidates sim idx v exclude).map (fun s => s.pos)).Nodup := by
  unfold candidates
  rw [List.map_map]
  have hsub : List.Sublist
      ((idx.entries.enum.filter
        (fun p => decide (¬ p.2.phrase.text ∈ exclude))).map Prod.fst)
      (idx.entries.enum.map Prod.fst) :=
    (List.filter_sublist _).map Prod.fst
  rw [List.enum_map_fst] at hsub
  exact hsub.nodup (List.nodup_range _)

theorem mem_candidates (sim : Vec → Vec → ℚ) (idx : Index) (v : Vec)
    (exclude : List String) (s : Scored)
    (h : s ∈ candidates sim idx v exclude) :
    ¬ s.entry.phrase.text ∈ exclude
    ∧ s.score = sim v s.entry.vector
    ∧ idx.entries[s.pos]? = some s.entry := by
  unfold candidates at h
  rw [List.mem_map] at h
  obtain ⟨p, hp, rfl⟩ := h
  rw [List.mem_filter] at hp
  obtain ⟨hpe, hpq⟩ := hp
  rw [decide_eq_true_eq] at hpq
  exact ⟨hpq, rfl, List.mem_enum_iff_getElem?.mp hpe⟩

/-- Claim C3: `nearest` returns an ordered sequence of (phrase, score) pairs
of length at most `k`, containing no phrase whose identity is in the exclude
set, each scored by the similarity metric against the query vector, sorted by
strictly descending score with equal scores ordered by corpus input position
(first-seen-first-returned). -/
theorem nearest_spec (sim : Vec → Vec → ℚ) (idx : Index) (v : Vec) (k : Nat)
    (exclude : List String) :
    (nearestScored sim idx v k exclude).length ≤ k
    ∧ (∀ s ∈ nearestScored sim idx v k exclude,
        ¬ s.entry.phrase.text ∈ exclude
        ∧ s.score = sim v s.entry.vector
        ∧ idx.entries[s.pos]? = some s.entry)
    ∧ (nearestScored sim idx v k exclude).Pairwise
        (fun a b => b.score < a.score ∨ (a.score = b.score ∧ a.pos < b.pos))
    ∧ nearest sim idx v k exclude
        = (nearestScored sim idx v k exclude).map (fun s => (s.entry, s.score)) := by
  refine ⟨?_, ?_, ?_, rfl⟩
  · unfold nearestScored
    rw [List.length_take]
    exact min_le_left _ _
  · intro s hs
    have hs2 : s ∈ sortBy scoreLe (candidates sim idx v exclude) :=
      (List.take_sublist _ _).mem hs
    exact mem_candidates sim idx v exclude s ((mem_sortBy _ _ _).mp hs2)
  · have hsorted : (sortBy scoreLe (candidates sim idx v exclude)).Pairwise
        (fun a b => scoreLe a b = true) :=
      pairwise_sortBy scoreLe scoreLe_trans scoreLe_total _
    have hperm : List.Perm (sortBy scoreLe (candidates sim idx v exclude))
        (candidates sim idx v exclude) := perm_sortBy _ _
    have hnd : ((sortBy scoreLe (candidates sim idx v exclude)).map
        (fun s => s.pos)).Nodup :=
      ((hperm.map (fun s => s.pos)).nodup_iff).mpr
        (candidates_pos_nodup sim idx v exclude)
    have hposne : (sortBy scoreLe (candidates sim idx v exclude)).Pairwise
        (fun a b => a.pos ≠ b.pos) := List.pairwise_map.mp hnd
    have hcomb := hsorted.and hposne
    have : (sortBy scoreLe (candidates sim idx v exclude)).Pairwise
        (fun a b => b.score < a.score ∨ (a.score = b.score ∧ a.pos < b.pos)) := by
      refine hcomb.imp ?_
      intro a b hab
      obtain ⟨hle, hne⟩ := hab
      rw [scoreLe, decide_eq_true_eq] at hle
      rcases hle with h | ⟨he, hp⟩
      · exact Or.inl h
      · exact Or.inr ⟨he, lt_of_le_of_ne hp hne⟩
    exact this.sublist (List.take_sublist _ _)

/-! The Similarity Analyzer. -/

/-- Modelled from the spec, section 3: a SimilarityPair records two embedded
phrases, their similarity score, and whether they belong to different
intents. -/
structure SimilarityPair where
  phrase_a : EmbeddedPhrase
  phrase_b : EmbeddedPhrase
  score : ℚ
  cross_intent : Bool
deriving DecidableEq, Repr

/-- Comparator for the conflict report: descending score. -/
def pairLe (a b : SimilarityPair) : Bool := decide (b.score ≤ a.score)

/-- Modelled from the spec, section 4.3 (`find_cross_intent_conflicts`): for
every training phrase find its nearest other phrase — excluding itself and
same-text duplicates, i.e. every corpus phrase sharing its text — with k = 1;
keep the pair when its score reaches the threshold and it is cross-intent;
report ordered by descending score. -/
def find_cross_intent_conflicts (sim : Vec → Vec → ℚ) (idx : Index)
    (threshold : ℚ) : List SimilarityPair :=
  sortBy pairLe (idx.entries.filterMap (fun a =>
    match nearest sim idx a.vector 1 [a.phrase.text] with
    | [] => none
    | (b, s) :: _ =>
      let pr : SimilarityPair :=
        ⟨a, b, s, decide (a.phrase.intent_name ≠ b.phrase.intent_name)⟩
      if threshold ≤ s ∧ pr.cross_intent = true then some pr else none))

/-- Claim C1: every pair returned by `find_cross_intent_conflicts` scores at
least the threshold, is marked cross-intent, its two phrases belong to
distinct intents, and its `cross_intent` flag agrees with the comparison of
the two intent names; no same-intent pair is ever reported. -/
theorem find_cross_intent_conflicts_sound (sim : Vec → Vec → ℚ) (idx : Index)
    (threshold : ℚ) (pr : SimilarityPair)
    (h : pr ∈ find_cross_intent_conflicts sim idx threshold) :
    threshold ≤ pr.score
    ∧ pr.cross_intent = true
    ∧ pr.phrase_a.phrase.intent_name ≠ pr.phrase_b.phrase.intent_name
    ∧ (pr.cross_intent = true
        ↔ pr.phrase_a.phrase.intent_name ≠ pr.phrase_b.phrase.intent_name) := by
  unfold find_cross_intent_conflicts at h
  rw [mem_sortBy, List.mem_filterMap] at h
  obtain ⟨a, _, heq⟩ := h
  rcases hn : nearest sim idx a.vector 1 [a.phrase.text] with _ | ⟨⟨b, s⟩, rest⟩
  · rw [hn] at heq
    exact absurd heq (by simp)
  · rw [hn] at heq
    simp only at heq
    by_cases hc : threshold ≤ s
        ∧ decide (a.phrase.intent_name ≠ b.phrase.intent_name) = true
    · rw [if_pos hc] at heq
      obtain ⟨hc1, hc2⟩ := hc
      rw [Option.some_inj] at heq
      subst heq
      rw [decide_eq_true_eq] at hc2
      exact ⟨hc1, by simpa using hc2, hc2, by simp⟩
    · rw [if_neg hc] at heq
      exact absurd heq (by simp)

/-! The batch similarity lookup. -/

/-- Result of one row of `find_most_similar`: the embedding of this utterance
failed (the row's error marker), the corpus was empty so no match exists, or
the single best corpus match and its score. -/
inductive RowResult where
  | failed
  | noMatch
  | matched (best : EmbeddedPhrase) (score : ℚ)
deriving DecidableEq, Repr

/-- Modelled from the spec, sections 4.3 and 7: processing of one utterance
of `find_most_similar` — embed it and find its single nearest training phrase
system-wide, no exclusions; an embedding failure is caught and recorded as
this row's error marker and touches no other row. -/
def processUtterance (sim : Vec → Vec → ℚ) (embed : Embedder) (idx : Index)
    (u : String) : String × RowResult :=
  match embed u with
  | none => (u, RowResult.failed)
  | some v =>
    match nearest sim idx v 1 [] with
    | [] => (u, RowResult.noMatch)
    | (b, s) :: _ => (u, RowResult.matched b s)

/-- Modelled from the spec, section 4.3 (`find_most_similar`): each input
utterance is processed independently and contributes exactly one output row,
in input order (a batch report, never sorted by score). -/
def find_most_similar (sim : Vec → Vec → ℚ) (embed : Embedder) (idx : Index)
    (utterances : List String) : List (String × RowResult) :=
  utterances.map (processUtterance sim embed idx)

theorem candidates_length_no_exclude (sim : Vec → Vec → ℚ) (idx : Index)
    (v : Vec) : (candidates sim idx v []).length = idx.entries.length := by
  unfold candidates
  rw [List.length_map, List.filter_eq_self.mpr (by simp), List.enum_length]

theorem nearest_ne_nil (sim : Vec → Vec → ℚ) (idx : Index) (v : Vec)
    (h : idx.entries ≠ []) : nearest sim idx v 1 [] ≠ [] := by
  unfold nearest nearestScored
  intro hcon
  rw [List.map_eq_nil_iff, List.take_eq_nil_iff] at hcon
  rcases hcon with hcon | hcon
  · exact absurd hcon one_ne_zero
  · have := congrArg List.length hcon
    rw [length_sortBy, candidates_length_no_exclude] at this
    exact h (List.length_eq_zero.mp this)

/-- Claim C4: an embedding failure of one utterance does not abort the batch:
`find_most_similar` still returns one row per input utterance, the failed
utterance's row carries the error marker — a row is marked failed exactly
when its own embedding call failed — and every other row of a nonempty corpus
carries a computed match; no row vanishes from the output. -/
theorem find_most_similar_failure_isolation (sim : Vec → Vec → ℚ)
    (embed : Embedder) (idx : Index) (utterances : List String) :
    (find_most_similar sim embed idx utterances).length = utterances.length
    ∧ ∀ (i : Nat) (u : String), utterances[i]? = some u →
        ∃ row, (find_most_similar sim embed idx utterances)[i]? = some row
          ∧ row.1 = u
          ∧ (row.2 = RowResult.failed ↔ embed u = none)
          ∧ (idx.entries ≠ [] → embed u ≠ none →
              ∃ b s, row.2 = RowResult.matched b s) := by
  constructor
  · unfold find_most_similar
    rw [List.length_map]
  · intro i u hu
    refine ⟨processUtterance sim embed idx u, ?_, ?_, ?_, ?_⟩
    · unfold find_most_similar
      rw [List.getElem?_map, hu, Option.map_some']
    · rcases he : embed u with _ | v <;> simp [processUtterance, he]
      rcases hn : nearest sim idx v 1 [] with _ | ⟨⟨b, s⟩, rest⟩ <;> simp
    · rcases he : embed u with _ | v
      · simp [processUtterance, he]
      · simp only [processUtterance, he]
        rcases hn : nearest sim idx v 1 [] with _ | ⟨⟨b, s⟩, rest⟩ <;> simp
    · intro hne hemb
      rcases he : embed u with _ | v
      · exact absurd he hemb
      · simp only [processUtterance, he]
        rcases hn : nearest sim idx v 1 [] with _ | ⟨⟨b, s⟩, rest⟩
        · exact absurd hn (nearest_ne_nil sim idx v hne)
        · exact ⟨b, s, rfl⟩

/-- Claim C5: `find_most_similar` returns exactly one row per input
utterance, the row at each position is computed from that position's
utterance alone (independent processing), and output order equals input
order. -/
theorem find_most_similar_row_per_input (sim : Vec → Vec → ℚ)
    (embed : Embedder) (idx : Index) (utterances : List String) :
    (find_most_similar sim embed idx utterances).length = utterances.length
    ∧ ∀ (i : Nat) (u : String), utterances[i]? = some u →
        (find_most_similar sim embed idx utterances)[i]?
          = some (processUtterance sim embed idx u)
    := by
  constructor
  · unfold find_most_similar
    rw [List.length_map]
  · intro i u hu
    unfold find_most_similar
    rw [List.getElem?_map, hu, Option.map_some']

/-- Claim C9: the embedding operation is a pure function of the input text —
two invocations on identical text yield the identical vector — and every
downstream analysis result is a function of the input data alone: two
embedders agreeing on the input utterances produce identical
`find_most_similar` reports. -/
theorem embed_deterministic (m : Embedder) (sim : Vec → Vec → ℚ) (idx : Index)
    (utterances : List String) (m2 : Embedder)
    (h : ∀ u ∈ utterances, m u = m2 u) :
    (∀ t : String, m t = m t)
    ∧ find_most_similar sim m idx utterances
        = find_most_similar sim m2 idx utterances := by
  refine ⟨fun _ => rfl, ?_⟩
  unfold find_most_similar
  refine List.map_congr_left ?_
  intro u hu
  unfold processUtterance
  rw [h u hu]

/-- Witness for claim C3 at a concrete input: a three-entry corpus queried
with k = 2 and one excluded identity. -/
theorem nearest_spec_witness :
    (nearestScored simEq
        ⟨[⟨⟨"hi", "Greet"⟩, [1]⟩, ⟨⟨"bye", "Leave"⟩, [2]⟩,
          ⟨⟨"yo", "Greet"⟩, [1]⟩]⟩ [1] 2 ["bye"]).length ≤ 2
    ∧ (nearestScored simEq
        ⟨[⟨⟨"hi", "Greet"⟩, [1]⟩, ⟨⟨"bye", "Leave"⟩, [2]⟩,
          ⟨⟨"yo", "Greet"⟩, [1]⟩]⟩ [1] 2 ["bye"]).Pairwise
        (fun a b => b.score < a.score ∨ (a.score = b.score ∧ a.pos < b.pos)) := by
  have h := nearest_spec simEq
    ⟨[⟨⟨"hi", "Greet"⟩, [1]⟩, ⟨⟨"bye", "Leave"⟩, [2]⟩,
      ⟨⟨"yo", "Greet"⟩, [1]⟩]⟩ [1] 2 ["bye"]
  exact ⟨h.1, h.2.2.1⟩

/-- Witness for claim C1 at a concrete input: a two-intent corpus whose
cross-intent near-duplicate pair is reported, and only with distinct intent
names. -/
theorem find_cross_intent_conflicts_sound_witness :
    (⟨⟨⟨"book a flight", "IntentA"⟩, [1]⟩,
      ⟨⟨"reserve a flight", "IntentB"⟩, [1]⟩, 1, true⟩ : SimilarityPair)
      ∈ find_cross_intent_conflicts simEq
        ⟨[⟨⟨"book a flight", "IntentA"⟩, [1]⟩,
          ⟨⟨"reserve a flight", "IntentB"⟩, [1]⟩]⟩ 0
    ∧ "IntentA" ≠ "IntentB" := by
  refine ⟨by decide, ?_⟩
  have h := find_cross_intent_conflicts_sound simEq
    ⟨[⟨⟨"book a flight", "IntentA"⟩, [1]⟩,
      ⟨⟨"reserve a flight", "IntentB"⟩, [1]⟩]⟩ 0
    ⟨⟨⟨"book a flight", "IntentA"⟩, [1]⟩,
      ⟨⟨"reserve a flight", "IntentB"⟩, [1]⟩, 1, true⟩ (by decide)
  exact h.2.2.1

/-- Witness for claim C4 at the spec's example input: a batch of five
utterances whose third embedding fails still yields a row at position three,
marked failed. -/
theorem find_most_similar_failure_isolation_witness :
    (["u1", "u2", "u3", "u4", "u5"] : List String)[2]? = some "u3"
    ∧ ∃ row,
        (find_most_similar simEq
          (fun u => if u = "u3" then none else some [1])
          ⟨[⟨⟨"hi", "Greet"⟩, [1]⟩]⟩
          ["u1", "u2", "u3", "u4", "u5"])[2]? = some row
        ∧ row.2 = RowResult.failed := by
  refine ⟨by decide, ?_⟩
  obtain ⟨row, hrow, -, hiff, -⟩ :=
    (find_most_similar_failure_isolation simEq
      (fun u => if u = "u3" then none else some [1])
      ⟨[⟨⟨"hi", "Greet"⟩, [1]⟩]⟩
      ["u1", "u2", "u3", "u4", "u5"]).2 2 "u3" (by decide)
  exact ⟨row, hrow, hiff.mpr (by decide)⟩

/-- Witness for claim C5 at a concrete input: the first output row of a
two-utterance batch is the independent processing of the first utterance. -/
theorem find_most_similar_row_per_input_witness :
    (["hello there", "goodbye"] : List String)[0]? = some "hello there"
    ∧ (find_most_similar simEq (fun _ => some [1])
        ⟨[⟨⟨"hi", "Greet"⟩, [1]⟩]⟩ ["hello there", "goodbye"])[0]?
      = some (processUtterance simEq (fun _ => some [1])
          ⟨[⟨⟨"hi", "Greet"⟩, [1]⟩]⟩ "hello there") :=
  ⟨by decide,
    (find_most_similar_row_per_input simEq (fun _ => some [1])
      ⟨[⟨⟨"hi", "Greet"⟩, [1]⟩]⟩ ["hello there", "goodbye"]).2 0
      "hello there" (by decide)⟩

/-- Witness for claim C9 at a concrete input: two embedders agreeing on the
batch produce the identical report. -/
theorem embed_deterministic_witness :
    (∀ u ∈ (["hello"] : List String),
      (fun _ : String => (some [(1 : ℚ)] : Option Vec)) u
        = (fun u' : String => if u' = "hello" then some [(1 : ℚ)] else none) u)
    ∧ find_most_similar simEq (fun _ : String => (some [(1 : ℚ)] : Option Vec))
        ⟨[]⟩ ["hello"]
      = find_most_similar simEq
          (fun u' : String => if u' = "hello" then some [(1 : ℚ)] else none)
          ⟨[]⟩ ["hello"] := by
  refine ⟨by decide, ?_⟩
  exact (embed_deterministic (fun _ : String => (some [(1 : ℚ)] : Option Vec))
    simEq ⟨[]⟩ ["hello"]
    (fun u' : String => if u' = "hello" then some [(1 : ℚ)] else none)
    (by decide)).2

/-- Witness for claim C10 at a concrete input: pushing from an empty
repository state produces a one-commit history mirrored on origin. -/
theorem repopush_always_pushes_new_commit_witness :
    (repopush "export run" "agentfile" "A" "M" "T" ⟨[], [], []⟩).main_history
      = [⟨"export run", [("agentfile", "A"), ("metadata.json", "M"),
          ("timestamp.txt", "T")]⟩]
    ∧ (repopush "export run" "agentfile" "A" "M" "T" ⟨[], [], []⟩).origin_main
      = (repopush "export run" "agentfile" "A" "M" "T" ⟨[], [], []⟩).main_history := by
  have h := repopush_always_pushes_new_commit "export run" "agentfile" "A" "M"
    "T" ⟨[], [], []⟩
  exact ⟨h.1, h.2.1⟩

/-! The Cluster Analyzer. -/

/-- An utterance kept for clustering: its text and its embedding vector. -/
abbrev UttItem := String × Vec

/-- Modelled from the spec, section 4.4 step 3: two items are near when their
pairwise similarity reaches the cluster-cohesion threshold. -/
def near (sim : Vec → Vec → ℚ) (t : ℚ) (x y : UttItem) : Bool :=
  decide (t ≤ sim x.2 y.2)

/-- Modelled from the spec, section 4.4 step 3: account one item into the
groups built so far — every existing group holding an item near the new one
is merged with it into a single group (threshold-based transitive
grouping). -/
def clusterStep (sim : Vec → Vec → ℚ) (t : ℚ) (groups : List (List UttItem))
    (x : UttItem) : List (List UttItem) :=
  let split := groups.partition (fun g => g.any (fun y => near sim t x y))
  (x :: split.1.flatten) :: split.2

/-- Modelled from the spec, section 4.4 step 3: group the retained items by
transitive threshold-based similarity. -/
def buildClusters (sim : Vec → Vec → ℚ) (t : ℚ) (items : List UttItem) :
    List (List UttItem) :=
  items.foldl (clusterStep sim t) []

/-- Modelled from the spec, sections 4.2 and 4.4 step 2: the best corpus
score of a vector (`none` for an empty corpus). -/
def bestScore (sim : Vec → Vec → ℚ) (idx : Index) (v : Vec) : Option ℚ :=
  match nearest sim idx v 1 [] with
  | [] => none
  | (_, s) :: _ => some s

/-- Modelled from the spec, section 4.4 step 2: an utterance is kept for
clustering when it does not already match the corpus at or above the
low-confidence threshold (an empty corpus matches nothing). -/
def lowConfidence (sim : Vec → Vec → ℚ) (idx : Index) (lowConf : ℚ)
    (v : Vec) : Bool :=
  match bestScore sim idx v with
  | none => true
  | some s => decide (s < lowConf)

/-- Modelled from the spec, section 4.4 steps 1-2: embed every utterance,
dropping embedding failures (recorded, non-fatal, excluded from clustering),
and retain the ones whose best corpus match stays below the low-confidence
threshold. -/
def retainedItems (sim : Vec → Vec → ℚ) (embed : Embedder) (idx : Index)
    (lowConf : ℚ) (utterances : List String) : List UttItem :=
  (utterances.filterMap (fun u => (embed u).map (fun v => (u, v)))).filter
    (fun p => lowConfidence sim idx lowConf p.2)

/-- Modelled from the spec, sections 4.4 step 5 and 6: one report row per
cluster — its member utterances, a representative member, and the
representative's best corpus score (`none` for an empty corpus). -/
structure ClusterRow where
  members : List String
  representative : String
  corpus_score : Option ℚ
deriving DecidableEq, Repr

/-- Report row of one group (none for the empty group, which never occurs);
the representative is the group's first member. -/
def rowOf (sim : Vec → Vec → ℚ) (idx : Index) (g : List UttItem) :
    Option ClusterRow :=
  match g with
  | [] => none
  | x :: _ => some ⟨g.map (fun y => y.1), x.1, bestScore sim idx x.2⟩

/-- Comparator on optional corpus scores: a smaller (or absent) score means a
larger corpus distance, surfaced first. -/
def scoreKeyLe (a b : Option ℚ) : Bool :=
  match a, b with
  | none, _ => true
  | some _, none => false
  | some x, some y => decide (x ≤ y)

/-- Report order (spec, section 4.4): descending member count, then
descending representative-to-corpus distance, i.e. ascending corpus score. -/
def rowLe (a b : ClusterRow) : Bool :=
  decide (b.members.length < a.members.length)
  || (decide (a.members.length = b.members.length)
      && scoreKeyLe a.corpus_score b.corpus_score)

/-- Modelled from the spec, section 4.4 (`find_new_groups`): embed, retain
the low-confidence utterances, cluster them transitively, and emit one
report row per cluster, sorted largest and most orphaned first. -/
def find_new_groups (sim : Vec → Vec → ℚ) (embed : Embedder) (idx : Index)
    (lowConf t : ℚ) (utterances : List String) : List ClusterRow :=
  sortBy rowLe
    ((buildClusters sim t
      (retainedItems sim embed idx lowConf utterances)).filterMap
        (rowOf sim idx))

/-- One edge of the similarity graph on the retained items. -/
def NearEdge (sim : Vec → Vec → ℚ) (t : ℚ) (R : List UttItem)
    (x y : UttItem) : Prop :=
  x ∈ R ∧ y ∈ R ∧ near sim t x y = true

/-- Connectivity in the similarity graph on the retained items: the
reflexive-transitive closure of its edge relation. -/
def Connected (sim : Vec → Vec → ℚ) (t : ℚ) (R : List UttItem)
    (x y : UttItem) : Prop :=
  Relation.ReflTransGen (NearEdge sim t R) x y

theorem near_comm (sim : Vec → Vec → ℚ) (t : ℚ)
    (hsymm : ∀ u v, sim u v = sim v u) (x y : UttItem) :
    near sim t x y = near sim t y x := by
  unfold near
  rw [hsymm]

theorem nearEdge_symm (sim : Vec → Vec → ℚ) (t : ℚ) (R : List UttItem)
    (hsymm : ∀ u v, sim u v = sim v u) (x y : UttItem)
    (h : NearEdge sim t R x y) : NearEdge sim t R y x := by
  obtain ⟨hx, hy, hn⟩ := h
  exact ⟨hy, hx, (near_comm sim t hsymm y x).trans hn⟩

theorem connected_symm (sim : Vec → Vec → ℚ) (t : ℚ) (R : List UttItem)
    (hsymm : ∀ u v, sim u v = sim v u) (x y : UttItem)
    (h : Connected sim t R x y) : Connected sim t R y x := by
  induction h with
  | refl => exact Relation.ReflTransGen.refl
  | tail _ hedge ih =>
    exact Relation.ReflTransGen.head (nearEdge_symm sim t R hsymm _ _ hedge) ih

/-- The loop invariant of transitive grouping: the groups exactly partition
the processed items, are nonempty, internally connected in the retained
similarity graph, and pairwise non-adjacent. -/
structure ClusterInv (sim : Vec → Vec → ℚ) (t : ℚ)
    (R done : List UttItem) (groups : List (List UttItem)) : Prop where
  complete : List.Perm groups.flatten done
  groups_ne : ∀ g ∈ groups, g ≠ []
  conn : ∀ g ∈ groups, ∀ x ∈ g, ∀ y ∈ g, Connected sim t R x y
  sep : ∀ g ∈ groups, ∀ g' ∈ groups, g ≠ g' →
    ∀ x ∈ g, ∀ y ∈ g', near sim t x y = false

theorem clusterStep_eq (sim : Vec → Vec → ℚ) (t : ℚ)
    (groups : List (List UttItem)) (x : UttItem) :
    clusterStep sim t groups x
      = (x :: (groups.filter (fun g => g.any (fun y => near sim t x y))).flatten)
        :: groups.filter (fun g => !(g.any (fun y => near sim t x y))) := by
  simp only [clusterStep, List.partition_eq_filter_filter]
  rfl

theorem clusterStep_inv (sim : Vec → Vec → ℚ) (t : ℚ) (R done : List UttItem)
    (groups : List (List UttItem)) (x : UttItem)
    (hsymm : ∀ u v, sim u v = sim v u)
    (hx : x ∈ R) (hdone : ∀ z ∈ done, z ∈ R)
    (inv : ClusterInv sim t R done groups) :
    ClusterInv sim t R (done ++ [x]) (clusterStep sim t groups x) := by
  rw [clusterStep_eq]
  have hlinked : ∀ g ∈ groups.filter (fun g => g.any (fun y => near sim t x y)),
      g ∈ groups ∧ g.any (fun y => near sim t x y) = true := by
    intro g hg
    exact List.mem_filter.mp hg
  have hrest : ∀ g ∈ groups.filter (fun g => !(g.any (fun y => near sim t x y))),
      g ∈ groups ∧ g.any (fun y => near sim t x y) = false := by
    intro g hg
    have h2 := List.mem_filter.mp hg
    exact ⟨h2.1, by simpa using h2.2⟩
  have hdoneR : ∀ z ∈ groups.flatten, z ∈ R := by
    intro z hz
    exact hdone z (inv.complete.mem_iff.mp hz)
  -- connectivity of the new first group to the new item
  have hconnx : ∀ y ∈ (groups.filter
      (fun g => g.any (fun y => near sim t x y))).flatten,
      Connected sim t R x y := by
    intro y hy
    obtain ⟨g, hgmem, hyg⟩ := List.mem_flatten.mp hy
    obtain ⟨hgg, hany⟩ := hlinked g hgmem
    obtain ⟨z, hz, hnear⟩ := List.any_eq_true.mp hany
    have hzR : z ∈ R := hdoneR z (List.mem_flatten.mpr ⟨g, hgg, hz⟩)
    have hstep : Connected sim t R x z :=
      Relation.ReflTransGen.single ⟨hx, hzR, by simpa using hnear⟩
    exact hstep.trans (inv.conn g hgg z hz y hyg)
  have hheadconn : ∀ y ∈ x :: (groups.filter
      (fun g => g.any (fun y => near sim t x y))).flatten,
      Connected sim t R x y := by
    intro y hy
    rcases List.mem_cons.mp hy with rfl | hy
    · exact Relation.ReflTransGen.refl
    · exact hconnx y hy
  refine ⟨?_, ?_, ?_, ?_⟩
  · -- the new groups partition done ++ [x]
    rw [List.flatten_cons]
    have h1 : (x :: (groups.filter (fun g => g.any (fun y => near sim t x y))).flatten)
        ++ (groups.filter (fun g => !(g.any (fun y => near sim t x y)))).flatten
        = x :: (groups.filter (fun g => g.any (fun y => near sim t x y))
            ++ groups.filter (fun g => !(g.any (fun y => near sim t x y)))).flatten := by
      rw [List.flatten_append]
      rfl
    rw [h1]
    have h2 : List.Perm
        (groups.filter (fun g => g.any (fun y => near sim t x y))
          ++ groups.filter (fun g => !(g.any (fun y => near sim t x y))))
        groups :=
      List.filter_append_perm _ groups
    have h3 := (h2.flatten).cons x
    have h4 := (inv.complete).cons x
    have h5 : List.Perm (x :: done) (done ++ [x]) := by
      simpa using @List.perm_append_comm _ [x] done
    exact (h3.trans h4).trans h5
  · -- nonemptiness
    intro g hg
    rcases List.mem_cons.mp hg with rfl | hg
    · exact List.cons_ne_nil _ _
    · exact inv.groups_ne g (hrest g hg).1
  · -- internal connectivity
    intro g hg p hp q hq
    rcases List.mem_cons.mp hg with rfl | hg
    · exact (connected_symm sim t R hsymm x p (hheadconn p hp)).trans
        (hheadconn q hq)
    · exact inv.conn g (hrest g hg).1 p hp q hq
  · -- separation
    intro g1 hg1 g2 hg2 hne p hp q hq
    rcases List.mem_cons.mp hg1 with rfl | hg1 <;>
      rcases List.mem_cons.mp hg2 with h2 | hg2
    · exact absurd h2.symm hne
    · -- p in the new first group, q in an untouched group
      obtain ⟨hg2g, hany2⟩ := hrest g2 hg2
      rcases List.mem_cons.mp hp with rfl | hp
      · have hall := List.any_eq_false.mp hany2
        simpa using hall q hq
      · obtain ⟨g', hg'mem, hpg'⟩ := List.mem_flatten.mp hp
        obtain ⟨hg'g, hany'⟩ := hlinked g' hg'mem
        have hne' : g' ≠ g2 := by
          intro hcon
          rw [hcon, hany2] at hany'
          exact Bool.noConfusion hany'
        exact inv.sep g' hg'g g2 hg2g hne' p hpg' q hq
    · -- p in an untouched group, q in the new first group
      subst h2
      obtain ⟨hg1g, hany1⟩ := hrest g1 hg1
      rcases List.mem_cons.mp hq with rfl | hq
      · rw [near_comm sim t hsymm]
        have hall := List.any_eq_false.mp hany1
        simpa using hall p hp
      · obtain ⟨g', hg'mem, hqg'⟩ := List.mem_flatten.mp hq
        obtain ⟨hg'g, hany'⟩ := hlinked g' hg'mem
        have hne' : g1 ≠ g' := by
          intro hcon
          rw [← hcon, hany1] at hany'
          exact Bool.noConfusion hany'
        exact inv.sep g1 hg1g g' hg'g hne' p hp q hqg'
    · -- both groups untouched
      exact inv.sep g1 (hrest g1 hg1).1 g2 (hrest g2 hg2).1 hne p hp q hq

theorem foldl_clusterStep_inv (sim : Vec → Vec → ℚ) (t : ℚ) (R : List UttItem)
    (hsymm : ∀ u v, sim u v = sim v u) :
    ∀ (todo done : List UttItem) (groups : List (List UttItem)),
      (∀ z ∈ done, z ∈ R) → (∀ z ∈ todo, z ∈ R) →
      ClusterInv sim t R done groups →
      ClusterInv sim t R (done ++ todo)
        (todo.foldl (clusterStep sim t) groups) := by
  intro todo
  induction todo with
  | nil =>
    intro done groups h1 h2 inv
    simpa using inv
  | cons x todo ih =>
    intro done groups h1 h2 inv
    have hx : x ∈ R := h2 x (List.mem_cons_self x todo)
    have step := clusterStep_inv sim t R done groups x hsymm hx h1 inv
    have hdone' : ∀ z ∈ done ++ [x], z ∈ R := by
      intro z hz
      rcases List.mem_append.mp hz with hz | hz
      · exact h1 z hz
      · rw [List.mem_singleton] at hz
        exact hz ▸ hx
    have h2' : ∀ z ∈ todo, z ∈ R :=
      fun z hz => h2 z (List.mem_cons_of_mem x hz)
    have := ih (done ++ [x]) (clusterStep sim t groups x) hdone' h2' step
    simpa [List.append_assoc] using this

theorem buildClusters_inv (sim : Vec → Vec → ℚ) (t : ℚ) (R : List UttItem)
    (hsymm : ∀ u v, sim u v = sim v u) :
    ClusterInv sim t R R (buildClusters sim t R) := by
  have base : ClusterInv sim t R [] [] := by
    refine ⟨by simp, by simp, by simp, by simp⟩
  have := foldl_clusterStep_inv sim t R hsymm R [] []
    (by simp) (fun z hz => hz) base
  simpa [buildClusters] using this

theorem same_group_closed (sim : Vec → Vec → ℚ) (t : ℚ) (R : List UttItem)
    (groups : List (List UttItem)) (inv : ClusterInv sim t R R groups)
    (g : List UttItem) (hg : g ∈ groups) (a : UttItem) (ha : a ∈ g)
    (b : UttItem) (hconn : Connected sim t R a b) : b ∈ g := by
  induction hconn with
  | refl => exact ha
  | tail _ hedge ih =>
    obtain ⟨hmidR, hbR, hnear⟩ := hedge
    obtain ⟨g', hg', hbg'⟩ :=
      List.mem_flatten.mp (inv.complete.mem_iff.mpr hbR)
    by_cases hgg : g = g'
    · exact hgg ▸ hbg'
    · have := inv.sep g hg g' hg' hgg _ ih _ hbg'
      rw [hnear] at this
      exact Bool.noConfusion this

theorem group_set_eq_reach (sim : Vec → Vec → ℚ) (t : ℚ) (R : List UttItem)
    (groups : List (List UttItem)) (inv : ClusterInv sim t R R groups)
    (g : List UttItem) (hg : g ∈ groups) (a : UttItem) (ha : a ∈ g) :
    { y | ∃ b ∈ g, b.1 = y }
      = { y | ∃ b, Connected sim t R a b ∧ b.1 = y } := by
  ext y
  simp only [Set.mem_setOf_eq]
  constructor
  · rintro ⟨b, hb, rfl⟩
    exact ⟨b, inv.conn g hg a ha b hb, rfl⟩
  · rintro ⟨b, hconn, rfl⟩
    exact ⟨b, same_group_closed sim t R groups inv g hg a ha b hconn, rfl⟩

/-- Claim C6: over the utterances retained for clustering, the clusters are
exactly the connected components of the similarity graph whose edges join
pairs at or above the cluster-cohesion threshold — the clusters partition the
retained items and two retained items share a cluster exactly when they are
joined by a chain of above-threshold pairs, even when their direct similarity
falls below the threshold. -/
theorem buildClusters_connected_components (sim : Vec → Vec → ℚ) (t : ℚ)
    (embed : Embedder) (idx : Index) (lowConf : ℚ) (utterances : List String)
    (a b : UttItem)
    (hsymm : ∀ u v, sim u v = sim v u)
    (ha : a ∈ retainedItems sim embed idx lowConf utterances)
    (_hb : b ∈ retainedItems sim embed idx lowConf utterances) :
    List.Perm
      (buildClusters sim t
        (retainedItems sim embed idx lowConf utterances)).flatten
      (retainedItems sim embed idx lowConf utterances)
    ∧ ((∃ g ∈ buildClusters sim t
          (retainedItems sim embed idx lowConf utterances), a ∈ g ∧ b ∈ g)
        ↔ Connected sim t (retainedItems sim embed idx lowConf utterances)
            a b) := by
  have inv := buildClusters_inv sim t
    (retainedItems sim embed idx lowConf utterances) hsymm
  refine ⟨inv.complete, ?_, ?_⟩
  · rintro ⟨g, hg, hag, hbg⟩
    exact inv.conn g hg a hag b hbg
  · intro hconn
    obtain ⟨g, hg, hag⟩ :=
      List.mem_flatten.mp (inv.complete.mem_iff.mpr ha)
    exact ⟨g, hg, hag,
      same_group_closed sim t _ _ inv g hg a hag b hconn⟩

/-- The list of vector pairs joined by the chain metric `simChain`. -/
def chainPairs : List (Vec × Vec) := [([1], [2]), ([2], [3])]

/-- A concrete symmetric similarity metric with a non-transitive
above-threshold relation: vectors [1] and [2] are similar, [2] and [3] are
similar, [1] and [3] are not. -/
def simChain (u v : Vec) : ℚ :=
  if u = v then 1
  else if (u, v) ∈ chainPairs ∨ (v, u) ∈ chainPairs then 1
  else 0

theorem simChain_comm (u v : Vec) : simChain u v = simChain v u := by
  unfold simChain
  by_cases h1 : u = v
  · subst h1
    rfl
  · have h1' : ¬v = u := fun h => h1 h.symm
    by_cases h2 : (u, v) ∈ chainPairs ∨ (v, u) ∈ chainPairs
    · have h2' : (v, u) ∈ chainPairs ∨ (u, v) ∈ chainPairs := Or.symm h2
      simp [h1, h1', h2, h2']
    · have h2' : ¬((v, u) ∈ chainPairs ∨ (u, v) ∈ chainPairs) :=
        fun h => h2 (Or.symm h)
      simp [h1, h1', h2, h2']

/-- Witness for claim C6 at a concrete input: three utterances embedded to
[1], [2], [3] under the chain metric with threshold 1; each hypothesis holds
at this input and the component characterization follows. -/
theorem buildClusters_connected_components_witness :
    ("uA", ([1] : Vec)) ∈ retainedItems simChain
        (fun u => if u = "uA" then some [1]
          else if u = "uB" then some [2] else some [3])
        ⟨[]⟩ 1 ["uA", "uB", "uC"]
    ∧ ("uC", ([3] : Vec)) ∈ retainedItems simChain
        (fun u => if u = "uA" then some [1]
          else if u = "uB" then some [2] else some [3])
        ⟨[]⟩ 1 ["uA", "uB", "uC"]
    ∧ ((∃ g ∈ buildClusters simChain 1
          (retainedItems simChain
            (fun u => if u = "uA" then some [1]
              else if u = "uB" then some [2] else some [3])
            ⟨[]⟩ 1 ["uA", "uB", "uC"]),
          ("uA", ([1] : Vec)) ∈ g ∧ ("uC", ([3] : Vec)) ∈ g)
        ↔ Connected simChain 1
            (retainedItems simChain
              (fun u => if u = "uA" then some [1]
                else if u = "uB" then some [2] else some [3])
              ⟨[]⟩ 1 ["uA", "uB", "uC"])
            ("uA", ([1] : Vec)) ("uC", ([3] : Vec))) := by
  refine ⟨by decide, by decide, ?_⟩
  exact (buildClusters_connected_components simChain 1
    (fun u => if u = "uA" then some [1]
      else if u = "uB" then some [2] else some [3])
    ⟨[]⟩ 1 ["uA", "uB", "uC"]
    ("uA", [1]) ("uC", [3])
    simChain_comm (by decide) (by decide)).2

/-- Claim C8: a retained utterance with no other retained member at or above
the cluster-cohesion threshold forms its own single-member cluster, and the
singleton cluster is still present in the report emitted by
`find_new_groups`; singletons are never dropped. -/
theorem singleton_cluster_reported (sim : Vec → Vec → ℚ) (t : ℚ)
    (embed : Embedder) (idx : Index) (lowConf : ℚ) (utterances : List String)
    (a : UttItem)
    (hsymm : ∀ u v, sim u v = sim v u)
    (ha : a ∈ retainedItems sim embed idx lowConf utterances)
    (hcount : (retainedItems sim embed idx lowConf utterances).countP
      (fun b => decide (b = a)) = 1)
    (hiso : ∀ b ∈ retainedItems sim embed idx lowConf utterances,
      b ≠ a → near sim t a b = false) :
    [a] ∈ buildClusters sim t (retainedItems sim embed idx lowConf utterances)
    ∧ ∃ row ∈ find_new_groups sim embed idx lowConf t utterances,
        row.members = [a.1] := by
  have inv := buildClusters_inv sim t
    (retainedItems sim embed idx lowConf utterances) hsymm
  have hreach : ∀ m, Connected sim t
      (retainedItems sim embed idx lowConf utterances) a m → m = a := by
    intro m hm
    induction hm with
    | refl => rfl
    | tail hab hbc ih =>
      rename_i b c
      obtain ⟨hbR, hcR, hnear⟩ := hbc
      rw [ih] at hnear
      by_cases hca : c = a
      · exact hca
      · have := hiso c hcR hca
        rw [hnear] at this
        exact Bool.noConfusion this
  obtain ⟨g, hg, hag⟩ :=
    List.mem_flatten.mp (inv.complete.mem_iff.mpr ha)
  have hall : ∀ m ∈ g, m = a := fun m hm => hreach m (inv.conn g hg a hag m hm)
  have hcg : g.countP (fun b => decide (b = a)) = g.length :=
    List.countP_eq_length.mpr (fun b hb => by simp [hall b hb])
  have hflat : ((buildClusters sim t
      (retainedItems sim embed idx lowConf utterances)).flatten).countP
      (fun b => decide (b = a)) = 1 :=
    (inv.complete.countP_eq (fun b => decide (b = a))).trans hcount
  have hle : g.countP (fun b => decide (b = a))
      ≤ ((buildClusters sim t
      (retainedItems sim embed idx lowConf utterances)).flatten).countP
      (fun b => decide (b = a)) := by
    rw [List.countP_flatten]
    exact List.le_sum_of_mem (List.mem_map.mpr ⟨g, hg, rfl⟩)
  have hlen1 : g.length = 1 := by
    have h1 : g.length ≤ 1 := by
      rw [← hcg]
      rw [hflat] at hle
      exact hle
    have h2 : 1 ≤ g.length := by
      rcases Nat.eq_zero_or_pos g.length with h0 | h0
      · exact absurd (List.length_eq_zero.mp h0) (inv.groups_ne g hg)
      · exact h0
    exact le_antisymm h1 h2
  obtain ⟨m, hm⟩ := List.length_eq_one.mp hlen1
  have hma : m = a := hall m (by rw [hm]; exact List.mem_singleton_self m)
  have hga : g = [a] := by rw [hm, hma]
  refine ⟨hga ▸ hg, ⟨⟨[a.1], a.1, bestScore sim idx a.2⟩, ?_, rfl⟩⟩
  unfold find_new_groups
  rw [mem_sortBy, List.mem_filterMap]
  exact ⟨[a], hga ▸ hg, rfl⟩

/-- Witness for claim C8 at a concrete input: of two retained utterances with
dissimilar embeddings, the first forms a singleton cluster and its row is in
the report. -/
theorem singleton_cluster_reported_witness :
    ("solo", ([1] : Vec)) ∈ retainedItems simEq
        (fun u => if u = "solo" then some [1] else some [2]) ⟨[]⟩ 1
        ["solo", "other"]
    ∧ (retainedItems simEq
        (fun u => if u = "solo" then some [1] else some [2]) ⟨[]⟩ 1
        ["solo", "other"]).countP
        (fun b => decide (b = ("solo", ([1] : Vec)))) = 1
    ∧ ([("solo", ([1] : Vec))] ∈ buildClusters simEq 1
        (retainedItems simEq
          (fun u => if u = "solo" then some [1] else some [2]) ⟨[]⟩ 1
          ["solo", "other"])
      ∧ ∃ row ∈ find_new_groups simEq
          (fun u => if u = "solo" then some [1] else some [2]) ⟨[]⟩ 1 1
          ["solo", "other"],
          row.members = ["solo"]) := by
  refine ⟨by decide, by decide, ?_⟩
  exact singleton_cluster_reported simEq 1
    (fun u => if u = "solo" then some [1] else some [2]) ⟨[]⟩ 1
    ["solo", "other"] ("solo", [1]) simEq_comm (by decide) (by decide)
    (by decide)

theorem retainedItems_perm (sim : Vec → Vec → ℚ) (embed : Embedder)
    (idx : Index) (lowConf : ℚ) (us us' : List String)
    (h : List.Perm us us') :
    List.Perm (retainedItems sim embed idx lowConf us)
      (retainedItems sim embed idx lowConf us') :=
  (h.filterMap _).filter _

theorem connected_congr (sim : Vec → Vec → ℚ) (t : ℚ)
    (R R' : List UttItem) (hmem : ∀ z, z ∈ R ↔ z ∈ R') (a b : UttItem) :
    Connected sim t R a b ↔ Connected sim t R' a b := by
  constructor <;> intro h <;> refine Relation.ReflTransGen.mono ?_ h
  · rintro x y ⟨h1, h2, h3⟩
    exact ⟨(hmem x).mp h1, (hmem y).mp h2, h3⟩
  · rintro x y ⟨h1, h2, h3⟩
    exact ⟨(hmem x).mpr h1, (hmem y).mpr h2, h3⟩

theorem cluster_text_sets (sim : Vec → Vec → ℚ) (t : ℚ) (R : List UttItem)
    (hsymm : ∀ u v, sim u v = sim v u) (S : Set String) :
    (∃ g ∈ buildClusters sim t R, { y | ∃ b ∈ g, b.1 = y } = S)
    ↔ (∃ a ∈ R, S = { y | ∃ b, Connected sim t R a b ∧ b.1 = y }) := by
  have inv := buildClusters_inv sim t R hsymm
  constructor
  · rintro ⟨g, hg, rfl⟩
    obtain ⟨a, ha⟩ : ∃ a, a ∈ g := by
      cases g with
      | nil => exact absurd rfl (inv.groups_ne [] hg)
      | cons a g => exact ⟨a, List.mem_cons_self a g⟩
    have haR : a ∈ R :=
      inv.complete.mem_iff.mp (List.mem_flatten.mpr ⟨g, hg, ha⟩)
    exact ⟨a, haR, group_set_eq_reach sim t R _ inv g hg a ha⟩
  · rintro ⟨a, haR, rfl⟩
    obtain ⟨g, hg, hag⟩ :=
      List.mem_flatten.mp (inv.complete.mem_iff.mpr haR)
    exact ⟨g, hg, group_set_eq_reach sim t R _ inv g hg a hag⟩

theorem mem_find_new_groups_iff (sim : Vec → Vec → ℚ) (embed : Embedder)
    (idx : Index) (lowConf t : ℚ) (us : List String) (r : ClusterRow) :
    r ∈ find_new_groups sim embed idx lowConf t us
    ↔ ∃ g ∈ buildClusters sim t (retainedItems sim embed idx lowConf us),
        rowOf sim idx g = some r :=
  (mem_sortBy _ _ _).trans List.mem_filterMap

theorem rowOf_members (sim : Vec → Vec → ℚ) (idx : Index)
    (g : List UttItem) (r : ClusterRow) (h : rowOf sim idx g = some r) :
    { y | y ∈ r.members } = { y | ∃ b ∈ g, b.1 = y } := by
  cases g with
  | nil => exact absurd h (by simp [rowOf])
  | cons x g =>
    simp only [rowOf, Option.some_inj] at h
    subst h
    ext y
    simp only [Set.mem_setOf_eq, List.mem_map]

/-- The report rows of `find_new_groups`, viewed as sets of member
utterances, are exactly the text sets of the connected components of the
retained similarity graph. -/
theorem report_sets_iff (sim : Vec → Vec → ℚ) (embed : Embedder)
    (idx : Index) (lowConf t : ℚ) (us : List String)
    (hsymm : ∀ u v, sim u v = sim v u) (S : Set String) :
    (∃ r ∈ find_new_groups sim embed idx lowConf t us,
      { y | y ∈ r.members } = S)
    ↔ (∃ a ∈ retainedItems sim embed idx lowConf us,
        S = { y | ∃ b, Connected sim t (retainedItems sim embed idx lowConf us)
            a b ∧ b.1 = y }) := by
  rw [← cluster_text_sets sim t (retainedItems sim embed idx lowConf us) hsymm]
  have inv := buildClusters_inv sim t
    (retainedItems sim embed idx lowConf us) hsymm
  constructor
  · rintro ⟨r, hr, rfl⟩
    obtain ⟨g, hg, hrow⟩ :=
      (mem_find_new_groups_iff sim embed idx lowConf t us r).mp hr
    exact ⟨g, hg, (rowOf_members sim idx g r hrow).symm⟩
  · rintro ⟨g, hg, rfl⟩
    have hne := inv.groups_ne g hg
    obtain ⟨x, g', rfl⟩ : ∃ x g', g = x :: g' := by
      cases g with
      | nil => exact absurd rfl hne
      | cons x g' => exact ⟨x, g', rfl⟩
    refine ⟨⟨(x :: g').map (fun y => y.1), x.1, bestScore sim idx x.2⟩, ?_, ?_⟩
    · exact (mem_find_new_groups_iff sim embed idx lowConf t us _).mpr
        ⟨x :: g', hg, rfl⟩
    · exact rowOf_members sim idx (x :: g') _ rfl

theorem scoreKeyLe_trans :
    ∀ a b c : Option ℚ, scoreKeyLe a b = true → scoreKeyLe b c = true →
      scoreKeyLe a c = true
  | none, _, _, _, _ => rfl
  | some _, none, _, h1, _ => by simp [scoreKeyLe] at h1
  | some _, some _, none, _, h2 => by simp [scoreKeyLe] at h2
  | some x, some y, some z, h1, h2 => by
    simp only [scoreKeyLe, decide_eq_true_eq] at h1 h2 ⊢
    exact le_trans h1 h2

theorem scoreKeyLe_total :
    ∀ a b : Option ℚ, scoreKeyLe a b || scoreKeyLe b a
  | none, _ => rfl
  | some _, none => rfl
  | some x, some y => by
    simp only [scoreKeyLe, Bool.or_eq_true, decide_eq_true_eq]
    exact le_total x y

theorem rowLe_eq_true_iff (a b : ClusterRow) :
    rowLe a b = true
    ↔ (b.members.length < a.members.length
        ∨ (a.members.length = b.members.length
            ∧ scoreKeyLe a.corpus_score b.corpus_score = true)) := by
  unfold rowLe
  rw [Bool.or_eq_true, Bool.and_eq_true, decide_eq_true_eq, decide_eq_true_eq]

theorem rowLe_trans (a b c : ClusterRow) (h1 : rowLe a b) (h2 : rowLe b c) :
    rowLe a c := by
  rw [rowLe_eq_true_iff] at h1 h2 ⊢
  rcases h1 with h1 | ⟨h1e, h1k⟩ <;> rcases h2 with h2 | ⟨h2e, h2k⟩
  · exact Or.inl (h2.trans h1)
  · exact Or.inl (h2e ▸ h1)
  · exact Or.inl (lt_of_lt_of_eq h2 h1e.symm)
  · exact Or.inr ⟨h1e.trans h2e, scoreKeyLe_trans _ _ _ h1k h2k⟩

theorem rowLe_total (a b : ClusterRow) : rowLe a b || rowLe b a := by
  rw [Bool.or_eq_true, rowLe_eq_true_iff, rowLe_eq_true_iff]
  rcases lt_trichotomy a.members.length b.members.length with h | h | h
  · exact Or.inr (Or.inl h)
  · rcases (by simpa using scoreKeyLe_total a.corpus_score b.corpus_score :
        scoreKeyLe a.corpus_score b.corpus_score = true
          ∨ scoreKeyLe b.corpus_score a.corpus_score = true) with hk | hk
    · exact Or.inl (Or.inr ⟨h, hk⟩)
    · exact Or.inr (Or.inr ⟨h.symm, hk⟩)
  · exact Or.inl (Or.inl h)

/-- Claim C7: running the Cluster Analyzer on any permutation of the input
utterance list yields the same set of clusters, compared as sets of member
utterances, and both reports are ordered by the stated sort rule — descending
member count, then descending representative-to-corpus distance — so only row
order may differ, and only per that rule. -/
theorem find_new_groups_stable_under_permutation (sim : Vec → Vec → ℚ)
    (embed : Embedder) (idx : Index) (lowConf t : ℚ) (us us' : List String)
    (hsymm : ∀ u v, sim u v = sim v u)
    (hperm : List.Perm us us') :
    (∀ S : Set String,
      (∃ r ∈ find_new_groups sim embed idx lowConf t us,
        { y | y ∈ r.members } = S)
      ↔ (∃ r ∈ find_new_groups sim embed idx lowConf t us',
        { y | y ∈ r.members } = S))
    ∧ (find_new_groups sim embed idx lowConf t us).Pairwise
        (fun r1 r2 => rowLe r1 r2 = true)
    ∧ (find_new_groups sim embed idx lowConf t us').Pairwise
        (fun r1 r2 => rowLe r1 r2 = true) := by
  have hR := retainedItems_perm sim embed idx lowConf us us' hperm
  have hmem : ∀ z, z ∈ retainedItems sim embed idx lowConf us
      ↔ z ∈ retainedItems sim embed idx lowConf us' := fun z => hR.mem_iff
  refine ⟨?_, ?_, ?_⟩
  · intro S
    rw [report_sets_iff sim embed idx lowConf t us hsymm S,
      report_sets_iff sim embed idx lowConf t us' hsymm S]
    constructor
    · rintro ⟨a, ha, rfl⟩
      refine ⟨a, (hmem a).mp ha, ?_⟩
      ext y
      simp only [Set.mem_setOf_eq]
      constructor
      · rintro ⟨b, hc, rfl⟩
        exact ⟨b, (connected_congr sim t _ _ hmem a b).mp hc, rfl⟩
      · rintro ⟨b, hc, rfl⟩
        exact ⟨b, (connected_congr sim t _ _ hmem a b).mpr hc, rfl⟩
    · rintro ⟨a, ha, rfl⟩
      refine ⟨a, (hmem a).mpr ha, ?_⟩
      ext y
      simp only [Set.mem_setOf_eq]
      constructor
      · rintro ⟨b, hc, rfl⟩
        exact ⟨b, (connected_congr sim t _ _ hmem a b).mpr hc, rfl⟩
      · rintro ⟨b, hc, rfl⟩
        exact ⟨b, (connected_congr sim t _ _ hmem a b).mp hc, rfl⟩
  · exact pairwise_sortBy rowLe rowLe_trans rowLe_total _
  · exact pairwise_sortBy rowLe rowLe_trans rowLe_total _

/-- Witness for claim C7 at a concrete input: a two-utterance batch and its
reversal produce the same cluster member-sets, and both reports are sorted by
the report rule. -/
theorem find_new_groups_stable_under_permutation_witness :
    List.Perm ["pa", "pb"] ["pb", "pa"]
    ∧ ((∀ S : Set String,
        (∃ r ∈ find_new_groups simEq
            (fun u => if u = "pa" then some [1] else some [2]) ⟨[]⟩ 1 1
            ["pa", "pb"],
          { y | y ∈ r.members } = S)
        ↔ (∃ r ∈ find_new_groups simEq
            (fun u => if u = "pa" then some [1] else some [2]) ⟨[]⟩ 1 1
            ["pb", "pa"],
          { y | y ∈ r.members } = S))
      ∧ (find_new_groups simEq
          (fun u => if u = "pa" then some [1] else some [2]) ⟨[]⟩ 1 1
          ["pa", "pb"]).Pairwise (fun r1 r2 => rowLe r1 r2 = true)
      ∧ (find_new_groups simEq
          (fun u => if u = "pa" then some [1] else some [2]) ⟨[]⟩ 1 1
          ["pb", "pa"]).Pairwise (fun r1 r2 => rowLe r1 r2 = true)) := by
  refine ⟨by decide, ?_⟩
  exact find_new_groups_stable_under_permutation simEq
    (fun u => if u = "pa" then some [1] else some [2]) ⟨[]⟩ 1 1
    ["pa", "pb"] ["pb", "pa"] simEq_comm (by decide)

end DfcxScrapi
